import Mathlib

/-!
Shallow embedding of the unreliable-message fragmentation/reassembly engine:
the per-peer message queue (`MsgQueue`), the per-message reassembly stage
(`MsgStage`), the chunk record (`MsgChunk`), and the sender-side chunking,
replication and drain logic from `network.rs`.

Modelling decisions:
* `MsgId` (Rust `u64`) is a `Nat`; the sender's id counter can never reach
  2^64 in practice (Rust would panic on overflow in debug builds), so no
  modulus is applied to it.  The `u16` piece index and piece total produced
  by the sender's casts are taken modulo 2^16 where the source casts.
* Rust's `VecMap` is modelled as an association list kept strictly sorted by
  key; insertion-if-absent (`insertPiece`) preserves sortedness, and
  iteration order (used by `merge`) is ascending key order, as for `VecMap`.
* Rust's `HashMap` of stages is modelled as an association list; only key
  lookups, keyed removal and keyed update are performed on it, so list order
  is unobservable through those operations.
* The UDP socket, the address resolution of `ToSocketAddrs` and the bincode
  codec are external collaborators; they appear as an abstract address type
  `α` and as `encode` / `sendTo` oracles returning `Except`.
-/

abbrev MsgId := Nat

/-- `PieceNum(u16, u16)`: 1-based piece index and piece total. -/
structure PieceNum where
  index : Nat
  total : Nat
deriving DecidableEq

/-- `MsgChunk(MsgId, PieceNum, Vec<u8>)`. -/
structure MsgChunk where
  id : MsgId
  num : PieceNum
  payload : List Nat
deriving DecidableEq

/-- `CompleteMessage(MsgId, Vec<u8>)`. -/
structure CompleteMessage where
  id : MsgId
  payload : List Nat
deriving DecidableEq

/-- `VecMap::insert` guarded by `!contains_key` (see `MsgStage::add_chunk`):
insert `(k, c)` into a key-sorted association list only when `k` is absent. -/
def insertPiece (k : Nat) (c : MsgChunk) : List (Nat × MsgChunk) → List (Nat × MsgChunk)
  | [] => [(k, c)]
  | x :: rest =>
    if k < x.1 then (k, c) :: x :: rest
    else if k = x.1 then x :: rest
    else x :: insertPiece k c rest

/-- `MsgStage`: per-message accumulator (`this_id`, `total_pieces`, sparse
index-keyed piece map). -/
structure MsgStage where
  this_id : MsgId
  total_pieces : Nat
  pieces : List (Nat × MsgChunk)
deriving DecidableEq

/-- `MsgStage::add_chunk`: store at `PieceNum.index` if that index is absent;
a duplicate index is silently ignored. -/
def MsgStage.add_chunk (s : MsgStage) (c : MsgChunk) : MsgStage :=
  { s with pieces := insertPiece c.num.index c s.pieces }

/-- `MsgStage::new`: `total_pieces` from the starter's `PieceNum.total`, empty
piece map, then `add_chunk(starter)`. -/
def MsgStage.new (starter : MsgChunk) : MsgStage :=
  MsgStage.add_chunk ⟨starter.id, starter.num.total, []⟩ starter

/-- `MsgStage::is_ready`: `total_pieces == pieces.len()`. -/
def MsgStage.is_ready (s : MsgStage) : Bool :=
  s.total_pieces == s.pieces.length

/-- `MsgStage::merge`: concatenate the stored payloads in ascending index
order (the `VecMap` iteration order). -/
def MsgStage.merge (s : MsgStage) : CompleteMessage :=
  ⟨s.this_id, (s.pieces.map (fun x => x.2.payload)).flatten⟩

/-- `MsgQueue`: `last_released` plus the map of open stages. -/
structure MsgQueue where
  last_released : Option MsgId
  stages : List (MsgId × MsgStage)
deriving DecidableEq

/-- `MsgQueue::new()`. -/
def MsgQueue.new : MsgQueue := ⟨none, []⟩

/-- `HashMap::get` on the stage map. -/
def findStage (id : MsgId) : List (MsgId × MsgStage) → Option MsgStage
  | [] => none
  | x :: rest => if x.1 = id then some x.2 else findStage id rest

/-- In-place mutation through `HashMap::get_mut`: replace the stage stored
under `id`. -/
def setStage (id : MsgId) (s : MsgStage) (l : List (MsgId × MsgStage)) :
    List (MsgId × MsgStage) :=
  l.map (fun kv => if kv.1 = id then (id, s) else kv)

/-- `MsgQueue::mark_published`: set `last_released = Some id` and remove every
open stage whose id satisfies `id > open`. -/
def MsgQueue.mark_published (q : MsgQueue) (id : MsgId) : MsgQueue :=
  ⟨some id, q.stages.filter (fun kv => ! decide (kv.1 < id))⟩

/-- The early-return staleness check of `insert_chunk`: `last.0 >= id.0` when
a message has already been released. -/
def isStale (last : Option MsgId) (id : MsgId) : Bool :=
  match last with
  | some l => decide (l ≥ id)
  | none => false

/-- `MsgQueue::insert_chunk`, returning the updated queue together with the
optional completed message (the Rust method mutates `self` and returns the
option). -/
def MsgQueue.insert_chunk (q : MsgQueue) (chunk : MsgChunk) :
    MsgQueue × Option CompleteMessage :=
  let id := chunk.id
  if isStale q.last_released id then
    (q, none)
  else if chunk.num.total = 1 then
    (q.mark_published id, some ⟨id, chunk.payload⟩)
  else
    match findStage id q.stages with
    | some stage =>
      let stage' := stage.add_chunk chunk
      if stage'.is_ready then
        (MsgQueue.mark_published ⟨q.last_released, q.stages.filter (fun kv => kv.1 != id)⟩ id,
         some stage'.merge)
      else
        (⟨q.last_released, setStage id stage' q.stages⟩, none)
    | none =>
      (⟨q.last_released, (id, MsgStage.new chunk) :: q.stages⟩, none)

/-- `static MSG_PADDING: u16 = 32`. -/
def MSG_PADDING : Nat := 32

/-- Fuel-indexed worker for `slice::chunks`; the fuel starts at the list
length, which suffices because each step drops at least one element. -/
def chunksGo : Nat → List Nat → Nat → List (List Nat)
  | 0, _, _ => []
  | fuel + 1, l, n => if l = [] then [] else l.take n :: chunksGo fuel (l.drop n) n

/-- Rust `message[..].chunks(n)`: successive `n`-sized slices, the last one
possibly shorter; the empty slice yields no chunks.  (Rust panics when
`n = 0`; theorems about the sender carry the hypothesis that makes the
chunk capacity positive.) -/
def chunksList (l : List Nat) (n : Nat) : List (List Nat) :=
  if n = 0 then [] else chunksGo l.length l n

/-- The sender's inner loop over `message.chunks(..)`: number the slices with
a running `chunk_count` (a `u16` in the source, hence the modulus on the
1-based index) and pair each resulting `MsgChunk` with the destination set. -/
def numberChunks (id : MsgId) (total : Nat) (a : α) :
    Nat → List (List Nat) → List (MsgChunk × α)
  | _, [] => []
  | cnt, slice :: rest =>
    (⟨id, ⟨(cnt + 1) % 65536, total⟩, slice⟩, a) :: numberChunks id total a (cnt + 1) rest

/-- `Sender`: outbound queue, id counter, configuration.  The UDP socket is
an external collaborator and the destination set is the abstract `α`. -/
structure Sender (α : Type) where
  out_queue : List (MsgChunk × α)
  last_id : Nat
  datagram_length : Nat
  replication : Nat

/-- `Sender::enqueue` after successful address resolution (resolution is an
external collaborator): bump `last_id`, split the message into slices of
`datagram_length - MSG_PADDING` bytes, and push the numbered chunks once per
replication round.  `num_chunks` is the source's floor division, and the
stored piece total is the source's `(num_chunks + 1) as u16`. -/
def Sender.enqueue (s : Sender α) (message : List Nat) (a : α) : Sender α :=
  let id := s.last_id + 1
  let cap := s.datagram_length - MSG_PADDING
  let num_chunks := message.length / cap
  let rounds := (List.range s.replication).map
    (fun _ => numberChunks id ((num_chunks + 1) % 65536) a 0 (chunksList message cap))
  { s with last_id := id, out_queue := s.out_queue ++ rounds.flatten }

/-- `Sender::send_one` with the bincode encoder and the socket's `send_to`
abstracted as oracles: pop the head, encode it, transmit it, and report
whether the queue is still non-empty; a failing step propagates its error
after the pop.  The returned list is the outbound queue after the call. -/
def send_one (encode : MsgChunk → Except ε (List Nat))
    (sendTo : List Nat → α → Except ε Unit) :
    List (MsgChunk × α) → List (MsgChunk × α) × Except ε Bool
  | [] => ([], Except.ok false)
  | x :: rest =>
    match encode x.1 with
    | Except.error e => (rest, Except.error e)
    | Except.ok bytes =>
      match sendTo bytes x.2 with
      | Except.error e => (rest, Except.error e)
      | Except.ok _ => (rest, Except.ok (! rest.isEmpty))

/-- Queue states reachable from `MsgQueue::new()` by `insert_chunk` calls. -/
inductive Reachable : MsgQueue → Prop where
  | init : Reachable MsgQueue.new
  | step (q : MsgQueue) (c : MsgChunk) : Reachable q → Reachable (q.insert_chunk c).1

/-- Well-formedness that `insert_chunk` maintains: every stage is stored
under its own `this_id`. -/
def QueueWF (q : MsgQueue) : Prop :=
  ∀ kv ∈ q.stages, kv.2.this_id = kv.1

/-! ## Helper lemmas -/

theorem isStale_eq_false (last : Option MsgId) (id : MsgId)
    (h : ∀ N, last = some N → N < id) : isStale last id = false := by
  cases hl : last with
  | none => rfl
  | some N =>
    have hN := h N hl
    simp only [isStale, decide_eq_false_iff_not]
    exact Nat.not_le.mpr hN

theorem isStale_eq_true (N id : MsgId) (h : id ≤ N) :
    isStale (some N) id = true := by
  simp only [isStale, decide_eq_true_eq]
  exact h

theorem findStage_filter_none (id : MsgId) (p : MsgId × MsgStage → Bool)
    (h : ∀ s, p (id, s) = false) :
    ∀ l : List (MsgId × MsgStage), findStage id (l.filter p) = none
  | [] => rfl
  | (k, s) :: rest => by
    rw [List.filter_cons]
    by_cases hp : p (k, s) = true
    · rw [if_pos hp]
      have hk : k ≠ id := by
        intro hkeq
        subst hkeq
        rw [h s] at hp
        exact Bool.noConfusion hp
      simp only [findStage, hk, if_false]
      exact findStage_filter_none id p h rest
    · rw [if_neg hp]
      exact findStage_filter_none id p h rest

theorem findStage_filter_eq (id : MsgId) (p : MsgId × MsgStage → Bool)
    (h : ∀ s, p (id, s) = true) :
    ∀ l : List (MsgId × MsgStage), findStage id (l.filter p) = findStage id l
  | [] => rfl
  | (k, s) :: rest => by
    rw [List.filter_cons]
    by_cases hk : k = id
    · subst hk
      rw [if_pos (h s)]
      simp [findStage]
    · by_cases hp : p (k, s) = true
      · rw [if_pos hp]
        simp only [findStage, hk, if_false]
        exact findStage_filter_eq id p h rest
      · rw [if_neg hp]
        simp only [findStage, hk, if_false]
        exact findStage_filter_eq id p h rest

theorem findStage_mem (id : MsgId) (s : MsgStage) :
    ∀ l : List (MsgId × MsgStage), findStage id l = some s → (id, s) ∈ l
  | [] => fun h => Option.noConfusion h
  | (k, v) :: rest => by
    intro h
    simp only [findStage] at h
    by_cases hk : k = id
    · subst hk
      rw [if_pos rfl] at h
      injection h with h
      subst h
      exact List.mem_cons_self _ _
    · rw [if_neg hk] at h
      exact List.mem_cons_of_mem _ (findStage_mem id s rest h)

/-! ## Claim theorems (first batch) -/

/-- C3: once `last_released` is `some N`, inserting any chunk whose id is at
most `N` returns `none`, creates no stage, and leaves the whole queue state
(`last_released` and all open stages) unchanged. -/
theorem stale_chunk_rejected (q : MsgQueue) (c : MsgChunk) (N : MsgId)
    (hN : q.last_released = some N) (hle : c.id ≤ N) :
    q.insert_chunk c = (q, none) := by
  simp [MsgQueue.insert_chunk, hN, isStale_eq_true N c.id hle]

/-- C3 witness: a queue with `last_released = some 5` rejects a chunk with
id 3 unchanged. -/
theorem stale_chunk_rejected_witness :
    (MsgQueue.mk (some 5) []).last_released = some 5 ∧ (3 : MsgId) ≤ 5 ∧
    (MsgQueue.mk (some 5) []).insert_chunk ⟨3, ⟨1, 1⟩, [9]⟩ =
      (MsgQueue.mk (some 5) [], none) :=
  ⟨rfl, by decide,
   stale_chunk_rejected (MsgQueue.mk (some 5) []) ⟨3, ⟨1, 1⟩, [9]⟩ 5 rfl (by decide)⟩

/-- C4: a non-stale chunk with `total = 1` is released immediately: the call
returns `CompleteMessage(id, payload)`, sets `last_released` to that id, and
creates no stage for that id (the stage map entry for the id is exactly what
it was before the call). -/
theorem single_piece_fast_path (q : MsgQueue) (c : MsgChunk)
    (hfresh : ∀ N, q.last_released = some N → N < c.id)
    (h1 : c.num.total = 1) :
    (q.insert_chunk c).2 = some ⟨c.id, c.payload⟩ ∧
    (q.insert_chunk c).1.last_released = some c.id ∧
    findStage c.id (q.insert_chunk c).1.stages = findStage c.id q.stages := by
  have hs := isStale_eq_false q.last_released c.id hfresh
  have hins : q.insert_chunk c = (q.mark_published c.id, some ⟨c.id, c.payload⟩) := by
    simp [MsgQueue.insert_chunk, hs, h1]
  rw [hins]
  refine ⟨rfl, rfl, ?_⟩
  exact findStage_filter_eq c.id _ (fun s => by simp) q.stages

/-- C4 witness: the fast path on a fresh queue at id 1. -/
theorem single_piece_fast_path_witness :
    (∀ N, MsgQueue.new.last_released = some N → N < 1) ∧
    ((MsgQueue.new.insert_chunk ⟨1, ⟨1, 1⟩, [7]⟩).2 = some ⟨1, [7]⟩ ∧
     (MsgQueue.new.insert_chunk ⟨1, ⟨1, 1⟩, [7]⟩).1.last_released = some 1 ∧
     findStage 1 (MsgQueue.new.insert_chunk ⟨1, ⟨1, 1⟩, [7]⟩).1.stages =
       findStage 1 MsgQueue.new.stages) :=
  ⟨fun _ h => Option.noConfusion h,
   single_piece_fast_path MsgQueue.new ⟨1, ⟨1, 1⟩, [7]⟩
     (fun _ h => Option.noConfusion h) rfl⟩

/-- C9: when the head of a non-empty outbound queue fails to encode, or
encodes but fails to transmit, `send_one` surfaces exactly that error, the
failed item has already been popped (it is not re-enqueued), and the rest of
the queue is untouched. -/
theorem send_one_failure (encode : MsgChunk → Except ε (List Nat))
    (sendTo : List Nat → α → Except ε Unit)
    (x : MsgChunk × α) (rest : List (MsgChunk × α)) (e : ε)
    (h : encode x.1 = Except.error e ∨
         ∃ bytes, encode x.1 = Except.ok bytes ∧ sendTo bytes x.2 = Except.error e) :
    send_one encode sendTo (x :: rest) = (rest, Except.error e) := by
  rcases h with he | ⟨bytes, hok, hsend⟩
  · simp [send_one, he]
  · simp [send_one, hok, hsend]

/-- C9 witness: a concrete failing encoder over `ε = Nat`, `α = Unit`. -/
theorem send_one_failure_witness :
    ((fun _ : MsgChunk => (Except.error 3 : Except Nat (List Nat))) ⟨1, ⟨1, 1⟩, []⟩ =
      Except.error 3 ∨
     ∃ bytes, (fun _ : MsgChunk => (Except.error 3 : Except Nat (List Nat))) ⟨1, ⟨1, 1⟩, []⟩ =
      Except.ok bytes ∧
      (fun (_ : List Nat) (_ : Unit) => (Except.ok () : Except Nat Unit)) bytes () =
        Except.error 3) ∧
    send_one (fun _ : MsgChunk => (Except.error 3 : Except Nat (List Nat)))
      (fun (_ : List Nat) (_ : Unit) => (Except.ok () : Except Nat Unit))
      [(⟨1, ⟨1, 1⟩, []⟩, ())] = ([], Except.error 3) :=
  ⟨Or.inl rfl,
   send_one_failure (fun _ => Except.error 3) (fun _ _ => Except.ok ())
     (⟨1, ⟨1, 1⟩, []⟩, ()) [] 3 (Or.inl rfl)⟩

/-- C10: with a positive fragment capacity (`MSG_PADDING < datagram_length`;
at equality the source's `message.len() / (datagram_length - MSG_PADDING)`
divides by zero and panics instead of returning), enqueueing an empty
message succeeds, consumes a message id, and appends nothing to the outbound
queue: the whole sender state change is the counter bump. -/
theorem empty_message_silently_dropped (s : Sender α) (a : α)
    (_hdg : MSG_PADDING < s.datagram_length) :
    s.enqueue [] a = { s with last_id := s.last_id + 1 } := by
  simp [Sender.enqueue, chunksList, chunksGo, numberChunks, List.map_const']

/-- C10 witness: an empty message on a sender with capacity 2, replication 3
and counter 7 only bumps the counter to 8. -/
theorem empty_message_silently_dropped_witness :
    MSG_PADDING < 34 ∧
    (Sender.mk [] 7 34 3 : Sender Unit).enqueue [] () =
      { (Sender.mk [] 7 34 3 : Sender Unit) with last_id := 7 + 1 } :=
  ⟨by decide, empty_message_silently_dropped (Sender.mk [] 7 34 3) () (by decide)⟩

/-- C1, evaluated at the failing input: with `datagram_length = 34` the
per-fragment capacity is `34 - MSG_PADDING = 2`, and the 2-byte message
`[0, 1]` is split into exactly one slice, yet the enqueued chunk's
`PieceNum.total` is `2/2 + 1 = 2` while the claimed ceiling division gives
`⌈2/2⌉ = 1`: the only chunk of the message announces two pieces, so the
message can never reassemble. -/
theorem fragment_total_overcounts :
    ((Sender.mk [] 0 34 1 : Sender Unit).enqueue [0, 1] ()).out_queue =
      [(⟨1, ⟨1, 2⟩, [0, 1]⟩, ())] ∧
    (chunksList [0, 1] (34 - MSG_PADDING)).length = 1 ∧
    (2 + (34 - MSG_PADDING) - 1) / (34 - MSG_PADDING) = 1 := by
  refine ⟨by decide, by decide, by decide⟩

/-! ## Stage lemmas: sorted piece map -/

theorem insertPiece_mem (k : Nat) (c : MsgChunk) :
    ∀ l : List (Nat × MsgChunk), ∀ y ∈ insertPiece k c l, y = (k, c) ∨ y ∈ l
  | [], y, hy => by
    simp only [insertPiece, List.mem_singleton] at hy
    exact Or.inl hy
  | x :: rest, y, hy => by
    unfold insertPiece at hy
    by_cases h1 : k < x.1
    · rw [if_pos h1] at hy
      rcases List.mem_cons.mp hy with rfl | hy'
      · exact Or.inl rfl
      · exact Or.inr hy'
    · rw [if_neg h1] at hy
      by_cases h2 : k = x.1
      · rw [if_pos h2] at hy
        exact Or.inr hy
      · rw [if_neg h2] at hy
        rcases List.mem_cons.mp hy with rfl | hy'
        · exact Or.inr (List.mem_cons_self _ _)
        · rcases insertPiece_mem k c rest y hy' with h | h
          · exact Or.inl h
          · exact Or.inr (List.mem_cons_of_mem _ h)

theorem insertPiece_pairwise (k : Nat) (c : MsgChunk) :
    ∀ l : List (Nat × MsgChunk), l.Pairwise (fun a b => a.1 < b.1) →
      (insertPiece k c l).Pairwise (fun a b => a.1 < b.1)
  | [], _ => by simp [insertPiece]
  | x :: rest, h => by
    rw [List.pairwise_cons] at h
    obtain ⟨hx, hrest⟩ := h
    unfold insertPiece
    by_cases h1 : k < x.1
    · rw [if_pos h1]
      refine List.Pairwise.cons ?_ (List.Pairwise.cons hx hrest)
      intro y hy
      rcases List.mem_cons.mp hy with rfl | hy'
      · exact h1
      · exact Nat.lt_trans h1 (hx y hy')
    · rw [if_neg h1]
      by_cases h2 : k = x.1
      · rw [if_pos h2]
        exact List.Pairwise.cons hx hrest
      · rw [if_neg h2]
        refine List.Pairwise.cons ?_ (insertPiece_pairwise k c rest hrest)
        intro y hy
        rcases insertPiece_mem k c rest y hy with rfl | hy'
        · exact Nat.lt_of_le_of_ne (Nat.le_of_not_lt h1) (Ne.symm h2)
        · exact hx y hy'

theorem insertPiece_perm_fresh (k : Nat) (c : MsgChunk) :
    ∀ l : List (Nat × MsgChunk), k ∉ l.map Prod.fst →
      List.Perm (insertPiece k c l) ((k, c) :: l)
  | [], _ => List.Perm.refl _
  | x :: rest, hk => by
    have hk1 : k ≠ x.1 := by
      intro h
      exact hk (by rw [List.map_cons, h]; exact List.mem_cons_self _ _)
    have hkrest : k ∉ rest.map Prod.fst := fun hm =>
      hk (by rw [List.map_cons]; exact List.mem_cons_of_mem _ hm)
    unfold insertPiece
    by_cases h1 : k < x.1
    · rw [if_pos h1]
    · rw [if_neg h1, if_neg hk1]
      exact ((insertPiece_perm_fresh k c rest hkrest).cons x).trans
        (List.Perm.swap (k, c) x rest)

theorem insertPiece_mem_eq (k : Nat) (c : MsgChunk) :
    ∀ l : List (Nat × MsgChunk), l.Pairwise (fun a b => a.1 < b.1) →
      k ∈ l.map Prod.fst → insertPiece k c l = l
  | [], _, hk => by simp at hk
  | x :: rest, hp, hk => by
    rw [List.pairwise_cons] at hp
    obtain ⟨hx, hrest⟩ := hp
    rw [List.map_cons, List.mem_cons] at hk
    unfold insertPiece
    by_cases h1 : k < x.1
    · exfalso
      rcases hk with h | h
      · omega
      · obtain ⟨y, hy, hyk⟩ := List.mem_map.mp h
        have := hx y hy
        omega
    · rw [if_neg h1]
      by_cases h2 : k = x.1
      · rw [if_pos h2]
      · rw [if_neg h2]
        have hkrest : k ∈ rest.map Prod.fst := by
          rcases hk with h | h
          · exact absurd h h2
          · exact h
        rw [insertPiece_mem_eq k c rest hrest hkrest]

theorem pairwise_keys_nodup (l : List (Nat × MsgChunk))
    (h : l.Pairwise (fun a b => a.1 < b.1)) : (l.map Prod.fst).Nodup :=
  List.pairwise_map.mpr (h.imp (fun hab => Nat.ne_of_lt hab))

/-! ## Fold lemmas: building a stage from a chunk list -/

/-- A stage built from a first chunk and the remaining chunks in their order
of arrival; mirrors `MsgStage::new` followed by repeated `add_chunk`. -/
def buildStage (first : MsgChunk) (rest : List MsgChunk) : MsgStage :=
  rest.foldl MsgStage.add_chunk (MsgStage.new first)

/-- The fragment of a message with one payload per index. -/
def pieceChunk (id n : Nat) (p : Nat → List Nat) (i : Nat) : MsgChunk :=
  ⟨id, ⟨i, n⟩, p i⟩

theorem foldl_add_chunk_total : ∀ (cs : List MsgChunk) (s : MsgStage),
    (cs.foldl MsgStage.add_chunk s).total_pieces = s.total_pieces
  | [], _ => rfl
  | c :: cs, s => by
    rw [List.foldl_cons]
    exact foldl_add_chunk_total cs (s.add_chunk c)

theorem foldl_add_chunk_id : ∀ (cs : List MsgChunk) (s : MsgStage),
    (cs.foldl MsgStage.add_chunk s).this_id = s.this_id
  | [], _ => rfl
  | c :: cs, s => by
    rw [List.foldl_cons]
    exact foldl_add_chunk_id cs (s.add_chunk c)

theorem foldl_add_chunk_pairwise : ∀ (cs : List MsgChunk) (s : MsgStage),
    s.pieces.Pairwise (fun a b => a.1 < b.1) →
    (cs.foldl MsgStage.add_chunk s).pieces.Pairwise (fun a b => a.1 < b.1)
  | [], _, h => h
  | c :: cs, s, h => by
    rw [List.foldl_cons]
    exact foldl_add_chunk_pairwise cs _ (insertPiece_pairwise _ _ _ h)

theorem foldl_add_chunk_perm : ∀ (cs : List MsgChunk) (s : MsgStage),
    (cs.map (fun c => c.num.index)).Nodup →
    (∀ c ∈ cs, c.num.index ∉ s.pieces.map Prod.fst) →
    List.Perm (cs.foldl MsgStage.add_chunk s).pieces
      ((cs.map (fun c => (c.num.index, c))) ++ s.pieces)
  | [], _, _, _ => List.Perm.refl _
  | c :: cs, s, hnd, hfresh => by
    rw [List.foldl_cons, List.map_cons]
    have hfresh_c : c.num.index ∉ s.pieces.map Prod.fst :=
      hfresh c (List.mem_cons_self _ _)
    have hadd : List.Perm (s.add_chunk c).pieces ((c.num.index, c) :: s.pieces) :=
      insertPiece_perm_fresh _ _ _ hfresh_c
    have hnd' : (cs.map (fun c => c.num.index)).Nodup := (List.nodup_cons.mp hnd).2
    have hfresh' : ∀ d ∈ cs, d.num.index ∉ (s.add_chunk c).pieces.map Prod.fst := by
      intro d hd hmem
      obtain ⟨y, hy, hyk⟩ := List.mem_map.mp hmem
      rcases insertPiece_mem _ _ _ y hy with rfl | hy'
      · have hmem' : d.num.index ∈ cs.map (fun c => c.num.index) :=
          List.mem_map_of_mem _ hd
        rw [← hyk] at hmem'
        exact (List.nodup_cons.mp hnd).1 hmem'
      · have hmem' : y.1 ∈ s.pieces.map Prod.fst := List.mem_map_of_mem _ hy'
        rw [hyk] at hmem'
        exact hfresh d (List.mem_cons_of_mem _ hd) hmem'
    have ih := foldl_add_chunk_perm cs (s.add_chunk c) hnd' hfresh'
    refine ih.trans ?_
    refine (List.Perm.append_left _ hadd).trans ?_
    exact List.perm_middle

/-- C6: adding a chunk whose index is already stored leaves the stage
unchanged, so a duplicate piece neither triggers premature readiness nor
changes the eventual merge result; the stored indices are distinct, and
`is_ready` holds exactly when their number equals `total_pieces`. -/
theorem duplicate_piece_idempotent (s : MsgStage) (c : MsgChunk)
    (hwf : s.pieces.Pairwise (fun a b => a.1 < b.1)) :
    (c.num.index ∈ s.pieces.map Prod.fst → s.add_chunk c = s) ∧
    (s.pieces.map Prod.fst).Nodup ∧
    (s.is_ready = true ↔ s.pieces.length = s.total_pieces) := by
  refine ⟨?_, pairwise_keys_nodup _ hwf, ?_⟩
  · intro hk
    unfold MsgStage.add_chunk
    rw [insertPiece_mem_eq c.num.index c s.pieces hwf hk]
  · show (s.total_pieces == s.pieces.length) = true ↔ _
    rw [beq_iff_eq]
    exact eq_comm

/-- C6 witness: re-adding index 1 (even with a different payload) leaves a
one-piece-of-two stage unchanged and not ready. -/
theorem duplicate_piece_idempotent_witness :
    ((MsgStage.new ⟨1, ⟨1, 2⟩, [5]⟩).pieces.Pairwise (fun a b => a.1 < b.1)) ∧
    (((1 : Nat) ∈ (MsgStage.new ⟨1, ⟨1, 2⟩, [5]⟩).pieces.map Prod.fst →
        (MsgStage.new ⟨1, ⟨1, 2⟩, [5]⟩).add_chunk ⟨1, ⟨1, 2⟩, [6]⟩ =
          MsgStage.new ⟨1, ⟨1, 2⟩, [5]⟩) ∧
      ((MsgStage.new ⟨1, ⟨1, 2⟩, [5]⟩).pieces.map Prod.fst).Nodup ∧
      ((MsgStage.new ⟨1, ⟨1, 2⟩, [5]⟩).is_ready = true ↔
        (MsgStage.new ⟨1, ⟨1, 2⟩, [5]⟩).pieces.length =
          (MsgStage.new ⟨1, ⟨1, 2⟩, [5]⟩).total_pieces)) :=
  ⟨by decide, duplicate_piece_idempotent (MsgStage.new ⟨1, ⟨1, 2⟩, [5]⟩) ⟨1, ⟨1, 2⟩, [6]⟩ (by decide)⟩

instance : IsAntisymm (Nat × MsgChunk) (fun a b => a.1 < b.1) :=
  ⟨fun _ _ h1 h2 => absurd h2 (Nat.lt_asymm h1)⟩

theorem buildStage_pieces_pairwise (first : MsgChunk) (cs : List MsgChunk) :
    (buildStage first cs).pieces.Pairwise (fun a b => a.1 < b.1) := by
  apply foldl_add_chunk_pairwise
  exact List.pairwise_singleton _ _

theorem buildStage_pieces_perm (id n : Nat) (p : Nat → List Nat) (i0 : Nat)
    (l : List Nat) (hnd : (i0 :: l).Nodup) :
    List.Perm (buildStage (pieceChunk id n p i0) (l.map (pieceChunk id n p))).pieces
      ((i0 :: l).map (fun i => (i, pieceChunk id n p i))) := by
  have hnd' := List.nodup_cons.mp hnd
  have hkeys : (l.map (pieceChunk id n p)).map (fun c => c.num.index) = l := by
    rw [List.map_map]
    exact List.map_id' l
  have hfresh : ∀ c ∈ l.map (pieceChunk id n p),
      c.num.index ∉ (MsgStage.new (pieceChunk id n p i0)).pieces.map Prod.fst := by
    intro c hc
    obtain ⟨i, hi, rfl⟩ := List.mem_map.mp hc
    show i ∉ [i0]
    simp only [List.mem_singleton]
    exact fun h => hnd'.1 (h ▸ hi)
  have hperm1 := foldl_add_chunk_perm (l.map (pieceChunk id n p))
    (MsgStage.new (pieceChunk id n p i0)) (by rw [hkeys]; exact hnd'.2) hfresh
  have hmapmk : (l.map (pieceChunk id n p)).map (fun c => (c.num.index, c)) =
      l.map (fun i => (i, pieceChunk id n p i)) := by
    rw [List.map_map]
    rfl
  rw [hmapmk] at hperm1
  refine hperm1.trans ?_
  rw [List.map_cons]
  exact List.perm_append_singleton _ _

/-- C5: a full set of pieces covering every index 1..n of one message,
presented in any insertion order, makes the stage ready exactly at the
arrival of the last distinct index, and merging yields the payloads
concatenated in ascending index order — the same result for every order. -/
theorem order_independent_reassembly (id n : Nat) (p : Nat → List Nat)
    (i0 : Nat) (rest : List Nat)
    (hperm : List.Perm (i0 :: rest) (List.range' 1 n)) :
    (buildStage (pieceChunk id n p i0) (rest.map (pieceChunk id n p))).is_ready = true ∧
    (buildStage (pieceChunk id n p i0) (rest.map (pieceChunk id n p))).merge =
      ⟨id, ((List.range' 1 n).map p).flatten⟩ ∧
    (∀ k, k < rest.length →
      (buildStage (pieceChunk id n p i0)
        ((rest.take k).map (pieceChunk id n p))).is_ready = false) := by
  have hnd : (i0 :: rest).Nodup := hperm.nodup_iff.mpr (List.nodup_range' 1 n)
  have hlen : rest.length + 1 = n := by
    have hl := hperm.length_eq
    simpa [List.length_range'] using hl
  have hpieces : (buildStage (pieceChunk id n p i0) (rest.map (pieceChunk id n p))).pieces =
      (List.range' 1 n).map (fun i => (i, pieceChunk id n p i)) := by
    have hsort1 := buildStage_pieces_pairwise (pieceChunk id n p i0)
      (rest.map (pieceChunk id n p))
    have hsort2 : ((List.range' 1 n).map (fun i => (i, pieceChunk id n p i))).Pairwise
        (fun a b : Nat × MsgChunk => a.1 < b.1) :=
      List.pairwise_map.mpr ((List.pairwise_lt_range' 1 n).imp (fun h => h))
    exact List.eq_of_perm_of_sorted
      ((buildStage_pieces_perm id n p i0 rest hnd).trans (hperm.map _)) hsort1 hsort2
  have htot : (buildStage (pieceChunk id n p i0)
      (rest.map (pieceChunk id n p))).total_pieces = n := foldl_add_chunk_total _ _
  refine ⟨?_, ?_, ?_⟩
  · simp [MsgStage.is_ready, htot, hpieces]
  · have hid : (buildStage (pieceChunk id n p i0)
        (rest.map (pieceChunk id n p))).this_id = id := foldl_add_chunk_id _ _
    unfold MsgStage.merge
    rw [hpieces, hid, List.map_map]
    rfl
  · intro k hk
    have hnd_k : (i0 :: rest.take k).Nodup := by
      rw [List.nodup_cons] at hnd ⊢
      exact ⟨fun hmem => hnd.1 (List.mem_of_mem_take hmem),
        hnd.2.sublist (List.take_sublist _ _)⟩
    have hp_k := buildStage_pieces_perm id n p i0 (rest.take k) hnd_k
    have hlen_k : (buildStage (pieceChunk id n p i0)
        ((rest.take k).map (pieceChunk id n p))).pieces.length = k + 1 := by
      rw [hp_k.length_eq]
      simp [List.length_take]
      omega
    have htot_k : (buildStage (pieceChunk id n p i0)
        ((rest.take k).map (pieceChunk id n p))).total_pieces = n := foldl_add_chunk_total _ _
    simp only [MsgStage.is_ready, htot_k, hlen_k]
    rw [beq_eq_false_iff_ne]
    omega

/-- C5 witness: the two pieces of message 0 inserted in the order 2 then 1
still merge to the ascending-order concatenation `[1, 2]`. -/
theorem order_independent_reassembly_witness :
    List.Perm ([2, 1] : List Nat) (List.range' 1 2) ∧
    ((buildStage (pieceChunk 0 2 (fun i => [i]) 2)
        ([1].map (pieceChunk 0 2 (fun i => [i])))).is_ready = true ∧
     (buildStage (pieceChunk 0 2 (fun i => [i]) 2)
        ([1].map (pieceChunk 0 2 (fun i => [i])))).merge =
       ⟨0, ((List.range' 1 2).map (fun i => [i])).flatten⟩ ∧
     (∀ k, k < ([1] : List Nat).length →
       (buildStage (pieceChunk 0 2 (fun i => [i]) 2)
         (([1].take k).map (pieceChunk 0 2 (fun i => [i])))).is_ready = false)) :=
  ⟨List.Perm.swap 1 2 [], order_independent_reassembly 0 2 (fun i => [i]) 2 [1]
    (List.Perm.swap 1 2 [])⟩

/-! ## Case equations for `insert_chunk` -/

theorem insert_chunk_stale (q : MsgQueue) (c : MsgChunk)
    (h : isStale q.last_released c.id = true) :
    q.insert_chunk c = (q, none) := by
  simp [MsgQueue.insert_chunk, h]

theorem insert_chunk_single (q : MsgQueue) (c : MsgChunk)
    (hs : isStale q.last_released c.id = false) (h1 : c.num.total = 1) :
    q.insert_chunk c = (q.mark_published c.id, some ⟨c.id, c.payload⟩) := by
  simp [MsgQueue.insert_chunk, hs, h1]

theorem insert_chunk_ready (q : MsgQueue) (c : MsgChunk) (stage : MsgStage)
    (hs : isStale q.last_released c.id = false) (h1 : c.num.total ≠ 1)
    (hf : findStage c.id q.stages = some stage)
    (hr : (stage.add_chunk c).is_ready = true) :
    q.insert_chunk c =
      (MsgQueue.mark_published
        ⟨q.last_released, q.stages.filter (fun kv => kv.1 != c.id)⟩ c.id,
       some (stage.add_chunk c).merge) := by
  simp [MsgQueue.insert_chunk, hs, h1, hf, hr]

theorem insert_chunk_not_ready (q : MsgQueue) (c : MsgChunk) (stage : MsgStage)
    (hs : isStale q.last_released c.id = false) (h1 : c.num.total ≠ 1)
    (hf : findStage c.id q.stages = some stage)
    (hr : (stage.add_chunk c).is_ready = false) :
    q.insert_chunk c =
      (⟨q.last_released, setStage c.id (stage.add_chunk c) q.stages⟩, none) := by
  simp [MsgQueue.insert_chunk, hs, h1, hf, hr]

theorem insert_chunk_new (q : MsgQueue) (c : MsgChunk)
    (hs : isStale q.last_released c.id = false) (h1 : c.num.total ≠ 1)
    (hf : findStage c.id q.stages = none) :
    q.insert_chunk c =
      (⟨q.last_released, (c.id, MsgStage.new c) :: q.stages⟩, none) := by
  simp [MsgQueue.insert_chunk, hs, h1, hf]

theorem isStale_false_fresh (last : Option MsgId) (id : MsgId)
    (h : isStale last id = false) : ∀ M, last = some M → M < id := by
  intro M hM
  rw [hM] at h
  simp only [isStale, decide_eq_false_iff_not] at h
  exact Nat.not_le.mp h

/-- Completion of a preserved stage: a non-stale multi-piece chunk that makes
its stage ready produces the merged message. -/
theorem insert_completes (q : MsgQueue) (c : MsgChunk) (s : MsgStage)
    (hfresh : ∀ last, q.last_released = some last → last < c.id)
    (ht : c.num.total ≠ 1)
    (hf : findStage c.id q.stages = some s)
    (hr : (s.add_chunk c).is_ready = true) :
    (q.insert_chunk c).2 = some ((s.add_chunk c).merge) := by
  rw [insert_chunk_ready q c s (isStale_eq_false _ _ hfresh) ht hf hr]

/-! ## C7: the queue invariant -/

theorem insert_chunk_inv (q : MsgQueue) (c : MsgChunk)
    (hI : ∀ N, q.last_released = some N → ∀ kv ∈ q.stages, N ≤ kv.1) :
    ∀ N, (q.insert_chunk c).1.last_released = some N →
      ∀ kv ∈ (q.insert_chunk c).1.stages, N ≤ kv.1 := by
  by_cases hs : isStale q.last_released c.id = true
  · rw [insert_chunk_stale q c hs]
    exact hI
  · have hs' : isStale q.last_released c.id = false := by
      cases h : isStale q.last_released c.id
      · rfl
      · exact absurd h hs
    have hfresh := isStale_false_fresh q.last_released c.id hs'
    by_cases h1 : c.num.total = 1
    · rw [insert_chunk_single q c hs' h1]
      intro N hN kv hkv
      injection hN with hN
      subst hN
      have hp := (List.mem_filter.mp hkv).2
      simp only [Bool.not_eq_true', decide_eq_false_iff_not] at hp
      exact Nat.le_of_not_lt hp
    · cases hf : findStage c.id q.stages with
      | some stage =>
        cases hr : (stage.add_chunk c).is_ready with
        | true =>
          rw [insert_chunk_ready q c stage hs' h1 hf hr]
          intro N hN kv hkv
          injection hN with hN
          subst hN
          have hp := (List.mem_filter.mp hkv).2
          simp only [Bool.not_eq_true', decide_eq_false_iff_not] at hp
          exact Nat.le_of_not_lt hp
        | false =>
          rw [insert_chunk_not_ready q c stage hs' h1 hf hr]
          intro N hN kv hkv
          obtain ⟨kv0, hkv0, hkveq⟩ := List.mem_map.mp hkv
          by_cases hk : kv0.1 = c.id
          · rw [if_pos hk] at hkveq
            subst hkveq
            exact Nat.le_of_lt (hfresh N hN)
          · rw [if_neg hk] at hkveq
            subst hkveq
            exact hI N hN kv0 hkv0
      | none =>
        rw [insert_chunk_new q c hs' h1 hf]
        intro N hN kv hkv
        rcases List.mem_cons.mp hkv with rfl | hkv'
        · exact Nat.le_of_lt (hfresh N hN)
        · exact hI N hN kv hkv'

/-- C7 (amended): in every queue reachable by `insert_chunk` from the empty
queue, once `last_released = some N` every open stage's id is at least `N`
(equality is possible, see the counterexample to the strict version). -/
theorem stage_ids_ge_last_released (q : MsgQueue) (hq : Reachable q) :
    ∀ N, q.last_released = some N → ∀ kv ∈ q.stages, N ≤ kv.1 := by
  induction hq with
  | init => exact fun N hN => Option.noConfusion hN
  | step q' c _ ih => exact insert_chunk_inv q' c ih

/-- The reachable queue refuting the strict invariant: a two-piece message 5
opens a stage, then a single-piece chunk with the same id 5 is released by
the fast path, which purges only ids strictly below 5 and leaves the id-5
stage open with `last_released = some 5`. -/
def qSelfStage : MsgQueue :=
  ((MsgQueue.new.insert_chunk ⟨5, ⟨1, 2⟩, [0]⟩).1.insert_chunk ⟨5, ⟨1, 1⟩, [1]⟩).1

/-- C7 counterexample: `qSelfStage` is reachable, has `last_released = some 5`
and an open stage with id 5, so not every open stage id is strictly greater
than `last_released`. -/
theorem stage_id_not_gt_last_released :
    Reachable qSelfStage ∧
    qSelfStage.last_released = some 5 ∧
    (findStage 5 qSelfStage.stages).isSome = true ∧
    ¬ (∀ kv ∈ qSelfStage.stages, 5 < kv.1) :=
  ⟨Reachable.step _ _ (Reachable.step _ _ Reachable.init), by decide, by decide, by decide⟩

/-- C7 witness: the amended bound applied to `qSelfStage` at its open stage. -/
theorem stage_ids_ge_last_released_witness :
    qSelfStage.last_released = some 5 ∧
    (5, MsgStage.new ⟨5, ⟨1, 2⟩, [0]⟩) ∈ qSelfStage.stages ∧
    5 ≤ (5, MsgStage.new ⟨5, ⟨1, 2⟩, [0]⟩).1 :=
  ⟨by decide, by decide,
   stage_ids_ge_last_released qSelfStage
     (Reachable.step _ _ (Reachable.step _ _ Reachable.init)) 5 (by decide)
     (5, MsgStage.new ⟨5, ⟨1, 2⟩, [0]⟩) (by decide)⟩

/-! ## C2: release purges strictly older stages and preserves newer ones -/

/-- C2: whenever `insert_chunk` releases message `B = m.id` (fast path or
stage completion), `last_released` becomes `B`, every open stage with id
strictly below `B` is discarded unmerged, every open stage with id strictly
above `B` is preserved unchanged, and a preserved stage still completes when
its last missing piece arrives. -/
theorem release_purges_older_preserves_newer (q : MsgQueue) (c : MsgChunk)
    (m : CompleteMessage) (hwf : QueueWF q)
    (h : (q.insert_chunk c).2 = some m) :
    (q.insert_chunk c).1.last_released = some m.id ∧
    (∀ i, i < m.id → findStage i (q.insert_chunk c).1.stages = none) ∧
    (∀ i, m.id < i → findStage i (q.insert_chunk c).1.stages = findStage i q.stages) ∧
    (∀ c' s', m.id < c'.id → c'.num.total ≠ 1 →
      findStage c'.id (q.insert_chunk c).1.stages = some s' →
      (s'.add_chunk c').is_ready = true →
      ((q.insert_chunk c).1.insert_chunk c').2 = some ((s'.add_chunk c').merge)) := by
  have main : (q.insert_chunk c).1.last_released = some m.id ∧
      (∀ i, i < m.id → findStage i (q.insert_chunk c).1.stages = none) ∧
      (∀ i, m.id < i → findStage i (q.insert_chunk c).1.stages = findStage i q.stages) := by
    by_cases hs : isStale q.last_released c.id = true
    · rw [insert_chunk_stale q c hs] at h
      exact absurd h (by simp)
    · have hs' : isStale q.last_released c.id = false := by
        cases hb : isStale q.last_released c.id
        · rfl
        · exact absurd hb hs
      by_cases h1 : c.num.total = 1
      · rw [insert_chunk_single q c hs' h1] at h ⊢
        injection h with h
        subst h
        refine ⟨rfl, ?_, ?_⟩
        · intro i hi
          exact findStage_filter_none i _
            (fun s => by simp only [Bool.not_eq_false', decide_eq_true_eq]; exact hi) q.stages
        · intro i hi
          exact findStage_filter_eq i _
            (fun s => by
              simp only [Bool.not_eq_true', decide_eq_false_iff_not]
              exact Nat.lt_asymm hi) q.stages
      · cases hf : findStage c.id q.stages with
        | none =>
          rw [insert_chunk_new q c hs' h1 hf] at h
          exact absurd h (by simp)
        | some stage =>
          cases hr : (stage.add_chunk c).is_ready with
          | false =>
            rw [insert_chunk_not_ready q c stage hs' h1 hf hr] at h
            exact absurd h (by simp)
          | true =>
            rw [insert_chunk_ready q c stage hs' h1 hf hr] at h ⊢
            injection h with h
            subst h
            have hid : stage.this_id = c.id := hwf _ (findStage_mem c.id stage q.stages hf)
            have hmid : (stage.add_chunk c).merge.id = c.id := hid
            rw [hmid]
            refine ⟨rfl, ?_, ?_⟩
            · intro i hi
              exact findStage_filter_none i _
                (fun s => by simp only [Bool.not_eq_false', decide_eq_true_eq]; exact hi) _
            · intro i hi
              exact (findStage_filter_eq i _
                (fun s => by
                  simp only [Bool.not_eq_true', decide_eq_false_iff_not]
                  exact Nat.lt_asymm hi) _).trans
                (findStage_filter_eq i _
                  (fun s => by
                    simp only [bne_iff_ne, ne_eq]
                    exact Nat.ne_of_gt hi) q.stages)
  refine ⟨main.1, main.2.1, main.2.2, ?_⟩
  intro c' s' hgt ht' hf' hr'
  refine insert_completes _ c' s' ?_ ht' hf' hr'
  intro last hl
  rw [main.1] at hl
  injection hl with hl
  subst hl
  exact hgt

/-- C2 witness: the single-piece release of message 1 on the empty queue. -/
theorem release_purges_older_preserves_newer_witness :
    QueueWF MsgQueue.new ∧
    (MsgQueue.new.insert_chunk ⟨1, ⟨1, 1⟩, [2]⟩).2 = some ⟨1, [2]⟩ ∧
    ((MsgQueue.new.insert_chunk ⟨1, ⟨1, 1⟩, [2]⟩).1.last_released =
        some (CompleteMessage.mk 1 [2]).id ∧
     (∀ i, i < (CompleteMessage.mk 1 [2]).id →
       findStage i (MsgQueue.new.insert_chunk ⟨1, ⟨1, 1⟩, [2]⟩).1.stages = none) ∧
     (∀ i, (CompleteMessage.mk 1 [2]).id < i →
       findStage i (MsgQueue.new.insert_chunk ⟨1, ⟨1, 1⟩, [2]⟩).1.stages =
         findStage i MsgQueue.new.stages) ∧
     (∀ c' s', (CompleteMessage.mk 1 [2]).id < c'.id → c'.num.total ≠ 1 →
       findStage c'.id (MsgQueue.new.insert_chunk ⟨1, ⟨1, 1⟩, [2]⟩).1.stages = some s' →
       (s'.add_chunk c').is_ready = true →
       ((MsgQueue.new.insert_chunk ⟨1, ⟨1, 1⟩, [2]⟩).1.insert_chunk c').2 =
         some ((s'.add_chunk c').merge))) :=
  ⟨fun kv hkv => absurd hkv (List.not_mem_nil _), by decide,
   release_purges_older_preserves_newer MsgQueue.new ⟨1, ⟨1, 1⟩, [2]⟩ ⟨1, [2]⟩
     (fun kv hkv => absurd hkv (List.not_mem_nil _)) (by decide)⟩

/-! ## C8: replication enqueues identical copies -/

theorem numberChunks_mem_id (id total : Nat) (a : α) :
    ∀ (cnt : Nat) (slices : List (List Nat)) (x : MsgChunk × α),
      x ∈ numberChunks id total a cnt slices → x.1.id = id
  | _, [], _, hx => absurd hx (List.not_mem_nil _)
  | cnt, slice :: rest, x, hx => by
    rcases List.mem_cons.mp hx with rfl | hx'
    · rfl
    · exact numberChunks_mem_id id total a (cnt + 1) rest x hx'

theorem range_map_const {β : Type} (r : Nat) (b : β) :
    (List.range r).map (fun _ => b) = List.replicate r b := by
  rw [List.map_const', List.length_range]

/-- C8: one `enqueue` call appends exactly `replication` identical copies of
the message's chunk sequence to the outbound queue — every copy carries the
same fresh `MsgId` (`last_id + 1`) and the same `PieceNum` and payload per
slice position, so replication creates no new content. -/
theorem replication_identical (s : Sender α) (msg : List Nat) (a : α)
    (_hdg : MSG_PADDING < s.datagram_length) :
    (s.enqueue msg a).out_queue = s.out_queue ++
      (List.replicate s.replication
        (numberChunks (s.last_id + 1)
          ((msg.length / (s.datagram_length - MSG_PADDING) + 1) % 65536) a 0
          (chunksList msg (s.datagram_length - MSG_PADDING)))).flatten ∧
    (∀ x ∈ (List.replicate s.replication
        (numberChunks (s.last_id + 1)
          ((msg.length / (s.datagram_length - MSG_PADDING) + 1) % 65536) a 0
          (chunksList msg (s.datagram_length - MSG_PADDING)))).flatten,
      x.1.id = s.last_id + 1) := by
  constructor
  · show s.out_queue ++ ((List.range s.replication).map
      (fun _ => numberChunks (s.last_id + 1)
        ((msg.length / (s.datagram_length - MSG_PADDING) + 1) % 65536) a 0
        (chunksList msg (s.datagram_length - MSG_PADDING)))).flatten = _
    rw [range_map_const]
  · intro x hx
    rw [List.mem_flatten] at hx
    obtain ⟨l, hl, hxl⟩ := hx
    rw [List.eq_of_mem_replicate hl] at hxl
    exact numberChunks_mem_id _ _ a 0 _ x hxl

/-- C8 witness: two replication rounds of a one-slice message enqueue two
identical chunks with the fresh id 1. -/
theorem replication_identical_witness :
    MSG_PADDING < 34 ∧
    (((Sender.mk [] 0 34 2 : Sender Unit).enqueue [9] ()).out_queue =
      [] ++ (List.replicate 2
        (numberChunks (0 + 1) ((([9] : List Nat).length / (34 - MSG_PADDING) + 1) % 65536) () 0
          (chunksList [9] (34 - MSG_PADDING)))).flatten ∧
     (∀ x ∈ (List.replicate 2
        (numberChunks (0 + 1) ((([9] : List Nat).length / (34 - MSG_PADDING) + 1) % 65536) () 0
          (chunksList [9] (34 - MSG_PADDING)))).flatten,
       x.1.id = 0 + 1)) :=
  ⟨by decide, replication_identical (Sender.mk [] 0 34 2) [9] () (by decide)⟩
